import Mathlib

/-!
Verification development for the ray-tracer repository (SayYoungMan/ray-tracer).

The Rust sources are shallowly embedded: `f64` scalars of the rendering
pipeline are modelled as real numbers (the specification itself speaks of
reals), the canvas/PPM serializer — a self-contained integer/string
component — is modelled with rationals so that it stays executable, Rust
`Vec` becomes `List`, trait objects (`dyn Pattern`, `dyn Shape`) become
records of their dispatched methods or a closed variant type (the repository
defines exactly the sphere and plane shapes), and panics become `Option` or
are noted as out-of-contract junk values in comments.
-/

namespace RTrace

noncomputable section

/-- Modelled from the spec: `EPSILON = 1e-5` (the crate's `constants.rs` is not
among the source files; `src/utils.rs`, `src/matrices.rs`,
`src/shapes/plane.rs` all import `crate::constants::EPSILON`). -/
noncomputable def EPSILON : ℝ := 1 / 100000

/-- Modelled from the spec: `MAX_REFLECTION_DEPTH = 5` (from the missing
`constants.rs`, used by `src/world.rs` tests). -/
def MAX_REFLECTION_DEPTH : ℕ := 5

/-- Modelled from the spec: `MAX_COLOR_VALUE = 255` (from the missing
`constants.rs`, used by `src/canvas.rs`). -/
def MAX_COLOR_VALUE : ℕ := 255

/-! ## Tuples (`src/tuples.rs`)

`Point`, `Vector` and the older `SpatialTuple` are all 4-wide `f64` tuples
with componentwise arithmetic; we embed them as one type. -/

structure Tup4 where
  x : ℝ
  y : ℝ
  z : ℝ
  w : ℝ

instance : Add Tup4 := ⟨fun a b => ⟨a.x + b.x, a.y + b.y, a.z + b.z, a.w + b.w⟩⟩

instance : Sub Tup4 := ⟨fun a b => ⟨a.x - b.x, a.y - b.y, a.z - b.z, a.w - b.w⟩⟩

instance : Neg Tup4 := ⟨fun a => ⟨-a.x, -a.y, -a.z, -a.w⟩⟩

instance : HMul Tup4 ℝ Tup4 := ⟨fun a s => ⟨a.x * s, a.y * s, a.z * s, a.w * s⟩⟩

instance : HDiv Tup4 ℝ Tup4 := ⟨fun a s => ⟨a.x / s, a.y / s, a.z / s, a.w / s⟩⟩

/-- `Vector::dot` — over all four components. -/
def Tup4.dot (a b : Tup4) : ℝ := a.x * b.x + a.y * b.y + a.z * b.z + a.w * b.w

/-- `Vector::magnitude`. -/
noncomputable def Tup4.magnitude (a : Tup4) : ℝ :=
  Real.sqrt (a.x ^ 2 + a.y ^ 2 + a.z ^ 2 + a.w ^ 2)

/-- `Vector::normalize` (`self / mag`; division by a zero magnitude is junk,
as is the resulting `NaN` tuple in Rust). -/
noncomputable def Tup4.normalize (a : Tup4) : Tup4 := a / a.magnitude

/-- `Vector::reflect`: `self - normal * 2.0 * self.dot(&normal)`. -/
def Tup4.reflect (v normal : Tup4) : Tup4 := v - normal * (2 : ℝ) * v.dot normal

/-- `Point::origin()`. -/
def pointOrigin : Tup4 := ⟨0, 0, 0, 1⟩

/-! ## Colors (`src/color.rs`) -/

structure ColorR where
  r : ℝ
  g : ℝ
  b : ℝ

instance : Add ColorR := ⟨fun a b => ⟨a.r + b.r, a.g + b.g, a.b + b.b⟩⟩

/-- Hadamard product (`impl Mul for Color`). -/
instance : Mul ColorR := ⟨fun a b => ⟨a.r * b.r, a.g * b.g, a.b * b.b⟩⟩

/-- Scalar multiple (`impl Mul<f64> for Color`). -/
instance : HMul ColorR ℝ ColorR := ⟨fun a s => ⟨a.r * s, a.g * s, a.b * s⟩⟩

def black : ColorR := ⟨0, 0, 0⟩

def white : ColorR := ⟨1, 1, 1⟩

/-! ## Matrices (`src/matrices.rs`)

The Rust `Matrix` is a dynamically sized `Vec<Vec<f64>>` together with
`rows`/`cols` fields; out-of-bounds accesses panic in Rust and read a junk
default `0` here. -/

structure MatrixD where
  rows : ℕ
  cols : ℕ
  data : List (List ℝ)

/-- `Matrix::from_vec` (the Rust code panics when the inner rows have unequal
lengths and when `data` is empty; `cols` of an empty list is junk `0` here). -/
def MatrixD.from_vec (d : List (List ℝ)) : MatrixD :=
  ⟨d.length, (d.headD []).length, d⟩

/-- `Matrix::at` (named `entry` because `at` is a Lean keyword). Rust panics
out of bounds; here the junk default is `0`. -/
def MatrixD.entry (m : MatrixD) (i j : ℕ) : ℝ := ((m.data.getD i []).getD j 0)

/-- `Matrix::identity()`. -/
def MatrixD.identity : MatrixD :=
  ⟨4, 4, [[1, 0, 0, 0], [0, 1, 0, 0], [0, 0, 1, 0], [0, 0, 0, 1]]⟩

/-- `Matrix::transpose` (the Rust code keeps the original `rows`/`cols`
labels on the transposed data). -/
def MatrixD.transpose (m : MatrixD) : MatrixD :=
  ⟨m.rows, m.cols,
    (List.range m.cols).map fun j => (List.range m.rows).map fun i => m.entry i j⟩

/-- `Matrix::submatrix`: drop row `r` and column `c`. -/
def MatrixD.submatrix (m : MatrixD) (r c : ℕ) : MatrixD :=
  MatrixD.from_vec
    (((List.range m.rows).filter fun i => i ≠ r).map fun i =>
      ((List.range m.cols).filter fun j => j ≠ c).map fun j => m.entry i j)

theorem length_filter_ne_zero_range (n : ℕ) :
    (((List.range n).filter fun i => i ≠ 0).length) = n - 1 := by
  cases n with
  | zero => rfl
  | succ k =>
    rw [List.range_succ_eq_map]
    simp [List.filter_map, Function.comp_def]

theorem submatrix_rows_lt (m : MatrixD) (c : ℕ) (h : m.rows ≠ 0) :
    (m.submatrix 0 c).rows < m.rows := by
  show ((((List.range m.rows).filter fun i => i ≠ 0).map _).length) < m.rows
  rw [List.length_map, length_filter_ne_zero_range]
  omega

/-- `Matrix::determinant` with `determinant_2x2` inlined as the guarded first
case and the cofactor expansion of row 0 inlined (`cofactor(0, j)` is
`minor(0, j)` with sign `(-1)^j`).  Rust panics on degenerate shapes
(`rows = 0` reads out of bounds); those return junk `0` here. -/
def MatrixD.determinant (m : MatrixD) : ℝ :=
  if m.rows = 2 ∧ m.cols = 2 then
    m.entry 0 0 * m.entry 1 1 - m.entry 0 1 * m.entry 1 0
  else if h : m.rows = 0 then 0
  else
    ∑ j ∈ Finset.range m.cols,
      m.entry 0 j *
        (if (0 + j) % 2 = 0 then (m.submatrix 0 j).determinant
         else -(m.submatrix 0 j).determinant)
termination_by m.rows
decreasing_by
  all_goals exact submatrix_rows_lt m _ h

/-- `Matrix::minor`. -/
def MatrixD.minor (m : MatrixD) (r c : ℕ) : ℝ := (m.submatrix r c).determinant

/-- `Matrix::cofactor`. -/
def MatrixD.cofactor (m : MatrixD) (r c : ℕ) : ℝ :=
  if (r + c) % 2 = 0 then m.minor r c else -(m.minor r c)

/-- `Matrix::inverse`.  The Rust code first panics when the determinant is
zero (`is_invertible`); here the divisions by a zero determinant produce junk.
As in the source, the produced data is the transposed cofactor matrix divided
by the determinant, and the original `rows`/`cols` labels are kept. -/
def MatrixD.inverse (m : MatrixD) : MatrixD :=
  ⟨m.rows, m.cols,
    (List.range m.cols).map fun j =>
      (List.range m.rows).map fun i => m.cofactor i j / m.determinant⟩

/-- `impl PartialEq for Matrix`: dimension check, then for every in-range
entry the test `(self.at(i,j) - other.at(i,j)) > EPSILON` (note: the Rust
code compares the signed difference, without an absolute value). -/
def MatrixD.eqApprox (a b : MatrixD) : Prop :=
  a.cols = b.cols ∧ a.rows = b.rows ∧
    ∀ i, i < a.rows → ∀ j, j < a.cols → ¬(a.entry i j - b.entry i j > EPSILON)

/-- `impl Mul<SpatialTuple> for Matrix`, at the 4×4 shape the renderer uses
(Rust panics unless `cols = 4` and, via `from_vec`, unless `rows = 4`). -/
def MatrixD.mulTuple (m : MatrixD) (t : Tup4) : Tup4 :=
  ⟨m.entry 0 0 * t.x + m.entry 0 1 * t.y + m.entry 0 2 * t.z + m.entry 0 3 * t.w,
   m.entry 1 0 * t.x + m.entry 1 1 * t.y + m.entry 1 2 * t.z + m.entry 1 3 * t.w,
   m.entry 2 0 * t.x + m.entry 2 1 * t.y + m.entry 2 2 * t.z + m.entry 2 3 * t.w,
   m.entry 3 0 * t.x + m.entry 3 1 * t.y + m.entry 3 2 * t.z + m.entry 3 3 * t.w⟩

/-- `translation(x, y, z)` from `src/transformation.rs`. -/
def translation (x y z : ℝ) : MatrixD :=
  MatrixD.from_vec [[1, 0, 0, x], [0, 1, 0, y], [0, 0, 1, z], [0, 0, 0, 1]]

/-! ## Rays (`src/rays.rs`) -/

structure RayT where
  origin : Tup4
  direction : Tup4

/-- `Ray::new` (`src/rays.rs` lines 9–15): panics — modelled as `none` —
exactly when `origin.3 != 1.0 || direction.3 != 0.0`; otherwise stores both
tuples unchanged. -/
noncomputable def rayNew (origin direction : Tup4) : Option RayT :=
  if origin.w ≠ 1 ∨ direction.w ≠ 0 then none else some ⟨origin, direction⟩

/-- `Ray::position`. -/
def RayT.position (r : RayT) (t : ℝ) : Tup4 := r.origin + r.direction * t

/-- Modelled from the spec: `Ray::transform(M)` returns a ray with origin
`M·origin` and direction `M·direction` (§4.4; the snapshot of `rays.rs`
under `src/` predates this method, but `src/shapes.rs` calls it). -/
def RayT.transform (r : RayT) (m : MatrixD) : RayT :=
  ⟨m.mulTuple r.origin, m.mulTuple r.direction⟩

/-! ## Patterns (`src/patterns.rs`, `src/patterns/solid.rs`,
`src/patterns/checker.rs`, `src/utils.rs`)

A `&dyn Pattern` is embedded as the record of the two methods the renderer
dispatches on it: `transformation()` and `at(point)` (named `atPoint`; `at`
is a Lean keyword). -/

structure PatternO where
  transformation : MatrixD
  atPoint : Tup4 → ColorR

/-- `Solid::new(color)` as a trait object: `at` ignores the point, the
transformation is the identity. -/
def solidPattern (color : ColorR) : PatternO := ⟨MatrixD.identity, fun _ => color⟩

/-! Shapes are defined before `at_object` because the trait method receives
`object: &dyn Shape`. -/

/-! ## Shapes (`src/shapes.rs`, `src/shapes/sphere.rs`, `src/shapes/plane.rs`) -/

inductive ShapeKind
  | sphere
  | plane

/-- `Material` (`src/materials.rs`): the seven `f64` fields and the boxed
pattern trait object. -/
structure Material where
  ambient : ℝ
  diffuse : ℝ
  specular : ℝ
  shininess : ℝ
  reflective : ℝ
  transparency : ℝ
  refractive_index : ℝ
  pattern : PatternO

/-- `impl PartialEq for Material`: only `ambient`, `diffuse`, `specular`,
`shininess` and `pattern` are compared.  The dynamic dispatch
`self.pattern.equals(other.pattern)` is abstracted by the relation `pe`. -/
def Material.eqP (pe : PatternO → PatternO → Prop) (a b : Material) : Prop :=
  a.ambient = b.ambient ∧ a.diffuse = b.diffuse ∧ a.specular = b.specular ∧
    a.shininess = b.shininess ∧ pe a.pattern b.pattern

/-- `Material::new()` — the default material. -/
def Material.new : Material :=
  ⟨0.1, 0.9, 0.9, 200, 0, 0, 1, solidPattern white⟩

/-- A `Box<dyn Shape>` of this crate: the variant tag (the crate implements
exactly `Sphere` and `Plane`) plus the `transformation` and `material` every
variant stores and returns from its accessors. -/
structure ShapeD where
  kind : ShapeKind
  transformation : MatrixD
  material : Material

/-- `Pattern::at_object` (`src/patterns.rs` lines 11–16): the shape's inverse
transform is applied to the world point, then the pattern's own inverse
transform, and `at` is called on the result. -/
def PatternO.at_object (p : PatternO) (object : ShapeD) (world_point : Tup4) : ColorR :=
  let object_point := object.transformation.inverse.mulTuple world_point
  let pattern_point := p.transformation.inverse.mulTuple object_point
  p.atPoint pattern_point

/-- `zero_if_trivial` (`src/utils.rs`). -/
def zero_if_trivial (n : ℝ) : ℝ := if |n| < EPSILON then 0 else n

/-- The `Checker` pattern's own data (`src/patterns/checker.rs`): two boxed
child patterns and a transformation. -/
structure CheckerS where
  a : PatternO
  b : PatternO
  transformation : MatrixD

/-- `Checker::at`: snap each coordinate with `zero_if_trivial`, pick the
child by the parity of the floor sum, and sample that child at the (raw)
point pushed through the child's own inverse transform.  Rust computes
`x.floor() as i32` and sums in `i32` with the truncated remainder `% 2`;
the test `== 0` agrees with `Int` arithmetic and `Int.emod` used here. -/
def CheckerS.atPoint (c : CheckerS) (point : Tup4) : ColorR :=
  let x := zero_if_trivial point.x
  let y := zero_if_trivial point.y
  let z := zero_if_trivial point.z
  if (⌊x⌋ + ⌊y⌋ + ⌊z⌋) % 2 = 0 then
    c.a.atPoint (c.a.transformation.inverse.mulTuple point)
  else
    c.b.atPoint (c.b.transformation.inverse.mulTuple point)

/-! ## Lights (`src/lights.rs`) -/

structure PointLightD where
  position : Tup4
  intensity : ColorR

open scoped Classical in
/-- `Material::lighting` (`src/materials.rs` lines 45–93). `in_shadow` is a
proposition (the Rust `bool`). -/
def Material.lighting (m : Material) (light : PointLightD) (point eyev normalv : Tup4)
    (in_shadow : Prop) (object : ShapeD) : ColorR :=
  let color := m.pattern.at_object object point
  let effective_color := color * light.intensity
  let lightv := (light.position - point).normalize
  let ambient := effective_color * m.ambient
  let light_dot_normal := lightv.dot normalv
  let ds : ColorR × ColorR :=
    if light_dot_normal < 0 ∨ in_shadow then (black, black)
    else
      let diffuse := effective_color * m.diffuse * light_dot_normal
      let reflectv := -(lightv.reflect normalv)
      let reflect_dot_eye := reflectv.dot eyev
      if reflect_dot_eye ≤ 0 then (diffuse, black)
      else
        let factor := reflect_dot_eye ^ m.shininess
        (diffuse, light.intensity * m.specular * factor)
  ambient + ds.1 + ds.2

/-! ## Intersections (`src/intersection.rs`) -/

/-- `Intersection`: a `t` and the intersected shape (the Rust reference
`&dyn Shape` is embedded by value). -/
structure Inter where
  t : ℝ
  object : ShapeD

/-- `Sphere::local_intersect` (`src/shapes/sphere.rs` lines 45–63). -/
def sphereLocalIntersect (s : ShapeD) (local_ray : RayT) : List Inter :=
  let sphere_to_ray := local_ray.origin - pointOrigin
  let a := local_ray.direction.dot local_ray.direction
  let b := 2 * local_ray.direction.dot sphere_to_ray
  let c := sphere_to_ray.dot sphere_to_ray - 1
  let discriminant := b ^ 2 - 4 * a * c
  if discriminant < 0 then []
  else
    [⟨(-b - Real.sqrt discriminant) / (2 * a), s⟩,
     ⟨(-b + Real.sqrt discriminant) / (2 * a), s⟩]

/-- `Plane::local_intersect` (`src/shapes/plane.rs` lines 49–56). -/
def planeLocalIntersect (s : ShapeD) (local_ray : RayT) : List Inter :=
  if |local_ray.direction.y| < EPSILON then []
  else [⟨-local_ray.origin.y / local_ray.direction.y, s⟩]

/-- Dynamic dispatch of `local_intersect` over the crate's shape variants. -/
def ShapeD.localIntersect (s : ShapeD) (r : RayT) : List Inter :=
  match s.kind with
  | .sphere => sphereLocalIntersect s r
  | .plane => planeLocalIntersect s r

/-- Dynamic dispatch of `local_normal_at`. -/
def ShapeD.localNormalAt (s : ShapeD) (p : Tup4) : Tup4 :=
  match s.kind with
  | .sphere => ⟨p.x, p.y, p.z, 0⟩
  | .plane => ⟨0, 1, 0, 0⟩

/-- `Shape::intersect` (provided trait method, `src/shapes.rs`). -/
def ShapeD.intersect (s : ShapeD) (ray : RayT) : List Inter :=
  s.localIntersect (ray.transform s.transformation.inverse)

/-- `Shape::normal_at` (provided trait method, `src/shapes.rs`): transform the
point to local space, take the local normal, push it through the transposed
inverse, zero the `w` component, normalize. -/
def ShapeD.normalAt (s : ShapeD) (point : Tup4) : Tup4 :=
  let local_point := s.transformation.inverse.mulTuple point
  let local_normal := s.localNormalAt local_point
  let world_normal := s.transformation.inverse.transpose.mulTuple local_normal
  Tup4.normalize ⟨world_normal.x, world_normal.y, world_normal.z, 0⟩

/-- `Iterator::min_by` over a nonempty list: fold that replaces the
accumulator only on a strictly smaller key, so the FIRST minimal element
wins (`min_by`'s documented tie rule). -/
def minByT : List Inter → Option Inter
  | [] => none
  | x :: xs => some (xs.foldl (fun acc yv => if yv.t < acc.t then yv else acc) x)

/-- `hit` (`src/intersection.rs` lines 68–75): filter `t >= 0.0`, then
`min_by` on `t`. -/
def hit (intersections : List Inter) : Option Inter :=
  minByT (intersections.filter fun i => decide (0 ≤ i.t))

/-- `Computations` (`src/intersection.rs`). -/
structure Computations where
  t : ℝ
  object : ShapeD
  point : Tup4
  eyev : Tup4
  normalv : Tup4
  reflectv : Tup4
  inside : Prop
  over_point : Tup4

/-- `Intersection::prepare_computations`. -/
def Inter.prepare_computations (i : Inter) (ray : RayT) : Computations :=
  let point := ray.position i.t
  let eyev := -ray.direction
  let normalv0 := i.object.normalAt point
  let flip := normalv0.dot eyev < 0
  let normalv := if flip then -normalv0 else normalv0
  let over_point := point + normalv * EPSILON
  let reflectv := ray.direction.reflect normalv
  ⟨i.t, i.object, point, eyev, normalv, reflectv, flip, over_point⟩

/-! ## World (`src/world.rs`) -/

structure World where
  objects : List ShapeD
  light : PointLightD

/-- One step of a stable ascending insertion sort on `t`: equal keys keep
their input order, matching Rust's stable `sort_by` with
`a.t.partial_cmp(&b.t)`. -/
def insertByT (i : Inter) : List Inter → List Inter
  | [] => [i]
  | j :: rest => if j.t ≤ i.t then j :: insertByT i rest else i :: j :: rest

/-- Stable ascending sort by `t` (models `Vec::sort_by`, which is stable). -/
def sortByT (xs : List Inter) : List Inter := xs.foldr insertByT []

/-- `World::intersect`: append every shape's intersections in scene order,
then sort ascending by `t`. -/
def World.intersect (w : World) (r : RayT) : List Inter :=
  sortByT ((w.objects.map fun o => o.intersect r).flatten)

/-- `World::is_shadowed`. -/
def World.is_shadowed (w : World) (point : Tup4) : Prop :=
  let v := w.light.position - point
  let distance := v.magnitude
  let direction := v.normalize
  let r : RayT := ⟨point, direction⟩
  match hit (w.intersect r) with
  | some h => h.t < distance
  | none => False

mutual

/-- `World::shade_hit`. -/
def World.shade_hit (w : World) (comps : Computations) (remaining : ℕ) : ColorR :=
  let shadowed := w.is_shadowed comps.over_point
  let surface := comps.object.material.lighting w.light comps.point comps.eyev
    comps.normalv shadowed comps.object
  let reflected := w.reflected_color comps remaining
  surface + reflected
termination_by (remaining, 1)

/-- `World::color_at`. -/
def World.color_at (w : World) (r : RayT) (remaining : ℕ) : ColorR :=
  match hit (w.intersect r) with
  | none => black
  | some h => w.shade_hit (h.prepare_computations r) remaining
termination_by (remaining, 2)

/-- `World::reflected_color`: `remaining` is a Rust `usize`, so the guard
`remaining <= 0` is `remaining = 0` and `remaining - 1` is truncated
subtraction. -/
def World.reflected_color (w : World) (comps : Computations) (remaining : ℕ) : ColorR :=
  if h : remaining = 0 ∨ comps.object.material.reflective = 0 then black
  else
    let reflect_ray : RayT := ⟨comps.over_point, comps.reflectv⟩
    let color := w.color_at reflect_ray (remaining - 1)
    color * comps.object.material.reflective
termination_by (remaining, 0)

end

/-- Fuel-instrumented evaluator for the `color_at` / `shade_hit` /
`reflected_color` recursion: `fuel` bounds the depth of nested `color_at`
activations and `none` means the bound was hit, so `colorAtFuel` makes the
claim "`color_at` returns in finite time" statable: a fuel of
`remaining + 1` always suffices (see `color_at_terminates`). -/
def colorAtFuel (w : World) : ℕ → RayT → ℕ → Option ColorR
  | 0, _, _ => none
  | fuel + 1, r, remaining =>
    match hit (w.intersect r) with
    | none => some black
    | some h =>
      let comps := h.prepare_computations r
      let shadowed := w.is_shadowed comps.over_point
      let surface := comps.object.material.lighting w.light comps.point comps.eyev
        comps.normalv shadowed comps.object
      let reflected : Option ColorR :=
        if remaining = 0 ∨ comps.object.material.reflective = 0 then some black
        else
          (colorAtFuel w fuel ⟨comps.over_point, comps.reflectv⟩ (remaining - 1)).map
            fun c => c * comps.object.material.reflective
      reflected.map fun rc => surface + rc

/-- The specification-side `hit` (for claim C1, written from the claim's
words, to be compared with `hit`): the first element of `xs` whose `t` is
non-negative and minimal among the non-negative `t`s of `xs`. -/
def specHit (xs : List Inter) : Option Inter :=
  xs.find? fun i => decide (0 ≤ i.t ∧ ∀ j ∈ xs, 0 ≤ j.t → i.t ≤ j.t)

end

/-! ## Canvas and PPM serialization (`src/canvas.rs`)

This component manipulates only clamped integers and ASCII strings, so it is
embedded executably: pixel colors as rationals, the growing `String` as a
`List Char` (all produced characters are ASCII, so Rust's byte length equals
the character count and `String::pop` is `List.dropLast`, a no-op on the
empty string in both worlds). -/

/-- A canvas pixel color (`Color` as stored in `Canvas::color_grid`). -/
structure ColorQ where
  r : ℚ
  g : ℚ
  b : ℚ
deriving DecidableEq

/-- `clamp_and_scale_color_value` (`src/canvas.rs` lines 99–107): negative
components map to 0, components above 1 to `MAX_COLOR_VALUE`, and the rest
to `round(c * 255)`.  Rust's `f64::round` rounds half away from zero, which
on the non-negative in-range values equals `⌊c * 255 + 1/2⌋`; the final
`as u8` cast is the identity because the value lies in `[0, 255]`. -/
def clamp_and_scale_color_value (c : ℚ) : ℕ :=
  if c < 0 then 0
  else if c > 1 then MAX_COLOR_VALUE
  else (⌊c * (MAX_COLOR_VALUE : ℚ) + 1 / 2⌋).toNat

/-- Decimal rendering of a natural number, most significant digit first:
`format!("{}", v)` for the unsigned `v`. -/
def natDigits (n : ℕ) : List Char :=
  if h : n < 10 then [Nat.digitChar n]
  else natDigits (n / 10) ++ [Nat.digitChar (n % 10)]
decreasing_by exact Nat.div_lt_self (by omega) (by omega)

/-- The three space-separated components of one pixel, without the trailing
space. -/
def pixelGroup (c : ColorQ) : List Char :=
  natDigits (clamp_and_scale_color_value c.r) ++
    ' ' :: natDigits (clamp_and_scale_color_value c.g) ++
    ' ' :: natDigits (clamp_and_scale_color_value c.b)

/-- `format!("{} {} {} ", ...)`: the pixel's components plus the trailing
space the loop appends. -/
def pixelChars (c : ColorQ) : List Char := pixelGroup c ++ [' ']

/-- The body of the inner pixel loop of `construct_ppm_body`
(`src/canvas.rs` lines 67–81): append the pixel's characters, then — when
the column count since `last_newline_idx` exceeds 58 and this is not the
row's last pixel — pop the trailing space and append a newline, remembering
its index.  The state is `(body, last_newline_idx)`. -/
def ppmStep (rowLen : ℕ) (st : List Char × ℕ) (ic : ℕ × ColorQ) : List Char × ℕ :=
  let body := st.1 ++ pixelChars ic.2
  if body.length - st.2 > 58 ∧ ic.1 ≠ rowLen - 1 then
    let body2 := body.dropLast ++ ['\n']
    (body2, body2.length - 1)
  else (body, st.2)

/-- One iteration of the outer row loop (`src/canvas.rs` lines 66–86):
process the pixels with their `enumerate` indices, then pop the trailing
character and append the row-terminating newline. -/
def ppmRow (st : List Char × ℕ) (row : List ColorQ) : List Char × ℕ :=
  let stAfter := row.enum.foldl (ppmStep row.length) st
  let body2 := stAfter.1.dropLast ++ ['\n']
  (body2, body2.length - 1)

/-- `Canvas::construct_ppm_body` (`src/canvas.rs` lines 62–89) on the pixel
grid. -/
def construct_ppm_body (grid : List (List ColorQ)) : List Char :=
  (grid.foldl ppmRow ([], 0)).1

/-! ## Basic unfolding lemmas -/

@[simp] theorem Tup4.add_def (a b : Tup4) :
    a + b = ⟨a.x + b.x, a.y + b.y, a.z + b.z, a.w + b.w⟩ := rfl

@[simp] theorem Tup4.sub_def (a b : Tup4) :
    a - b = ⟨a.x - b.x, a.y - b.y, a.z - b.z, a.w - b.w⟩ := rfl

@[simp] theorem Tup4.neg_def (a : Tup4) : -a = ⟨-a.x, -a.y, -a.z, -a.w⟩ := rfl

@[simp] theorem Tup4.smul_def (a : Tup4) (s : ℝ) :
    a * s = ⟨a.x * s, a.y * s, a.z * s, a.w * s⟩ := rfl

theorem Tup4.dot_def (a b : Tup4) :
    a.dot b = a.x * b.x + a.y * b.y + a.z * b.z + a.w * b.w := rfl

/-! ## C9 — `Ray::new` fails loudly exactly on a non-point origin or a
non-vector direction -/

/-- Claim C9: `Ray::new(origin, direction)` panics (modelled: returns `none`)
if and only if `origin.w ≠ 1` or `direction.w ≠ 0`, and otherwise stores the
given origin and direction unchanged. -/
theorem ray_new_spec (origin direction : Tup4) :
    (rayNew origin direction = none ↔ origin.w ≠ 1 ∨ direction.w ≠ 0) ∧
    ∀ r, rayNew origin direction = some r → r.origin = origin ∧ r.direction = direction := by
  unfold rayNew
  by_cases hc : origin.w ≠ 1 ∨ direction.w ≠ 0
  · rw [if_pos hc]
    constructor
    · constructor
      · intro _
        exact hc
      · intro _
        rfl
    · intro r hr
      cases hr
  · rw [if_neg hc]
    constructor
    · constructor
      · intro hn
        cases hn
      · intro hor
        exact absurd hor hc
    · intro r hr
      cases hr
      exact ⟨rfl, rfl⟩

/-! ## C10 — `Material` equality compares only ambient, diffuse, specular,
shininess and pattern -/

/-- Claim C10: for any pattern-equality relation `pe` (the dynamic
`Pattern::equals` dispatch), material equality holds exactly when the five
compared fields agree, and overwriting `reflective`, `transparency` and
`refractive_index` on either side — with arbitrary, possibly different
values — never changes the verdict. -/
theorem material_eq_spec (pe : PatternO → PatternO → Prop) (a b : Material)
    (r t ri r2 t2 ri2 : ℝ) :
    (Material.eqP pe a b ↔
      a.ambient = b.ambient ∧ a.diffuse = b.diffuse ∧ a.specular = b.specular ∧
        a.shininess = b.shininess ∧ pe a.pattern b.pattern) ∧
    (Material.eqP pe
        { a with reflective := r, transparency := t, refractive_index := ri }
        { b with reflective := r2, transparency := t2, refractive_index := ri2 } ↔
      Material.eqP pe a b) := by
  constructor
  · exact Iff.rfl
  · exact Iff.rfl

/-! ## C3 — `Pattern::at_object` composes the two inverse transforms -/

/-- Claim C3: `at_object(shape, p) = at(pattern.transformation⁻¹ ·
(shape.transformation⁻¹ · p))` — the shape's inverse transform is applied
first, then the pattern's — and the result depends on the world point only
through that composite. -/
theorem at_object_spec (p : PatternO) (object : ShapeD) (world_point q : Tup4) :
    (p.at_object object world_point =
      p.atPoint (p.transformation.inverse.mulTuple
        (object.transformation.inverse.mulTuple world_point))) ∧
    (p.transformation.inverse.mulTuple (object.transformation.inverse.mulTuple world_point) =
        p.transformation.inverse.mulTuple (object.transformation.inverse.mulTuple q) →
      p.at_object object world_point = p.at_object object q) := by
  refine ⟨rfl, fun h => ?_⟩
  show p.atPoint _ = p.atPoint _
  exact congrArg p.atPoint h

/-! ## C6 — matrix equality is a signed, asymmetric comparison -/

/-- Counterexample to claim C6: for the 1×1 matrices `A = [[0]]` and
`B = [[1]]` the code's equality accepts `A == B` although the entries differ
by `1 ≥ EPSILON` in absolute value, and rejects `B == A`, so the relation is
neither the claimed absolute-value comparison nor symmetric. -/
theorem matrix_eq_counterexample :
    MatrixD.eqApprox (MatrixD.from_vec [[0]]) (MatrixD.from_vec [[1]]) ∧
    ¬ MatrixD.eqApprox (MatrixD.from_vec [[1]]) (MatrixD.from_vec [[0]]) ∧
    ¬ |(MatrixD.from_vec [[(0 : ℝ)]]).entry 0 0 - (MatrixD.from_vec [[1]]).entry 0 0|
        < EPSILON := by
  refine ⟨⟨rfl, rfl, ?_⟩, fun hcontra => ?_, ?_⟩
  · intro i hi j hj
    have hi1 : i < 1 := hi
    have hj1 : j < 1 := hj
    obtain rfl : i = 0 := by omega
    obtain rfl : j = 0 := by omega
    norm_num [MatrixD.entry, MatrixD.from_vec, EPSILON]
  · obtain ⟨-, -, h⟩ := hcontra
    have := h 0 (by norm_num [MatrixD.from_vec]) 0 (by norm_num [MatrixD.from_vec])
    rw [not_lt] at this
    norm_num [MatrixD.entry, MatrixD.from_vec, EPSILON] at this
  · norm_num [MatrixD.entry, MatrixD.from_vec, EPSILON]

/-- Claim C6 as amended: `A == B` holds iff the dimensions agree and every
entry of `A` exceeds the corresponding entry of `B` by at most `EPSILON` —
the code compares the signed difference `a - b` against `EPSILON` with no
absolute value, so the relation is not symmetric (see the counterexample). -/
theorem matrix_eq_signed_spec (a b : MatrixD) :
    MatrixD.eqApprox a b ↔
      a.cols = b.cols ∧ a.rows = b.rows ∧
        ∀ i, i < a.rows → ∀ j, j < a.cols → a.entry i j - b.entry i j ≤ EPSILON := by
  unfold MatrixD.eqApprox
  constructor
  · rintro ⟨h1, h2, h3⟩
    refine ⟨h1, h2, fun i hi j hj => ?_⟩
    have := h3 i hi j hj
    linarith [not_lt.mp this]
  · rintro ⟨h1, h2, h3⟩
    refine ⟨h1, h2, fun i hi j hj => ?_⟩
    have := h3 i hi j hj
    exact not_lt.mpr this

/-! ## C7 — the checker pattern snaps near-zero coordinates before flooring -/

/-- Counterexample to claim C7: at the point `(-1/200000, 0, 0)` — whose `x`
lies within `EPSILON` below zero — the floor sum `⌊x⌋+⌊y⌋+⌊z⌋ = -1` is odd,
so the claim demands the second color `b`, but `Checker::at` first snaps the
coordinate to `0` through `zero_if_trivial` and returns the first color `a`
(here `white ≠ black`). -/
theorem checker_counterexample :
    CheckerS.atPoint ⟨solidPattern white, solidPattern black, MatrixD.identity⟩
        ⟨-(1 / 200000), 0, 0, 1⟩ = white ∧
    (⌊(-(1 / 200000) : ℝ)⌋ + ⌊(0 : ℝ)⌋ + ⌊(0 : ℝ)⌋) % 2 ≠ 0 ∧
    white ≠ black := by
  have hfloor : ⌊(-(1 / 200000) : ℝ)⌋ = -1 := by
    rw [Int.floor_eq_iff]
    norm_num
  refine ⟨?_, ?_, ?_⟩
  · unfold CheckerS.atPoint
    have hz : zero_if_trivial (-(1 / 200000) : ℝ) = 0 := by
      unfold zero_if_trivial
      rw [if_pos]
      rw [abs_neg, abs_of_pos (by norm_num)]
      unfold EPSILON
      norm_num
    have hz0 : zero_if_trivial (0 : ℝ) = 0 := by
      unfold zero_if_trivial
      rw [if_pos]
      simp [EPSILON]
    simp only [hz, hz0]
    norm_num
    rfl
  · simp only [hfloor, Int.floor_zero]
    decide
  · intro h
    have : (1 : ℝ) = 0 := congrArg ColorR.r h
    norm_num at this

/-- Claim C7 as amended: a checker with solid children returns the first
color exactly when the floor sum of the `zero_if_trivial`-snapped coordinates
(coordinates within `EPSILON` of zero are replaced by `0` first) is even, and
the second color otherwise. -/
theorem checker_spec (a b : ColorR) (trans : MatrixD) (pt : Tup4) :
    CheckerS.atPoint ⟨solidPattern a, solidPattern b, trans⟩ pt =
      if (⌊zero_if_trivial pt.x⌋ + ⌊zero_if_trivial pt.y⌋ + ⌊zero_if_trivial pt.z⌋) % 2 = 0
      then a else b := by
  simp only [CheckerS.atPoint]
  split_ifs <;> rfl

/-! ## C2 — `Sphere::local_intersect` -/

/-- The quadratic coefficient `a = dir · dir` of the sphere intersection. -/
noncomputable def specSphereA (r : RayT) : ℝ := r.direction.dot r.direction

/-- The coefficient `b = 2 · dir · (origin − (0,0,0))`. -/
noncomputable def specSphereB (r : RayT) : ℝ :=
  2 * r.direction.dot (r.origin - pointOrigin)

/-- The coefficient `c = Δ · Δ − 1` with `Δ = origin − (0,0,0)`. -/
noncomputable def specSphereC (r : RayT) : ℝ :=
  (r.origin - pointOrigin).dot (r.origin - pointOrigin) - 1

/-- The discriminant `b² − 4ac`. -/
noncomputable def specSphereDisc (r : RayT) : ℝ :=
  specSphereB r ^ 2 - 4 * specSphereA r * specSphereC r

theorem sphereLocalIntersect_empty_iff (s : ShapeD) (r : RayT) :
    sphereLocalIntersect s r = [] ↔ specSphereDisc r < 0 := by
  simp only [sphereLocalIntersect]
  split_ifs with h
  · exact iff_of_true rfl h
  · exact iff_of_false (fun hf => hf) h

theorem sphereLocalIntersect_of_nonneg (s : ShapeD) (r : RayT)
    (h : 0 ≤ specSphereDisc r) :
    sphereLocalIntersect s r =
      [⟨(-specSphereB r - Real.sqrt (specSphereDisc r)) / (2 * specSphereA r), s⟩,
       ⟨(-specSphereB r + Real.sqrt (specSphereDisc r)) / (2 * specSphereA r), s⟩] := by
  simp only [sphereLocalIntersect]
  split_ifs with hneg
  · exact absurd hneg (not_lt.mpr h)
  · rfl

/-- Claim C2: `Sphere::local_intersect` returns the empty list exactly when
the discriminant `b² − 4ac` is negative, and otherwise exactly the two
intersections `t₁ = (−b − √disc)/(2a)` and `t₂ = (−b + √disc)/(2a)`, both
referencing the sphere (two even when tangent); in particular the five
rays of the spec's intersection-count scenario produce `{4, 6}`, `{5, 5}`,
`{}`, `{−1, 1}` and `{−6, −4}`. -/
theorem sphere_local_intersect_spec (s : ShapeD) (r : RayT) :
    (sphereLocalIntersect s r = [] ↔ specSphereDisc r < 0) ∧
    (0 ≤ specSphereDisc r →
      sphereLocalIntersect s r =
        [⟨(-specSphereB r - Real.sqrt (specSphereDisc r)) / (2 * specSphereA r), s⟩,
         ⟨(-specSphereB r + Real.sqrt (specSphereDisc r)) / (2 * specSphereA r), s⟩]) ∧
    sphereLocalIntersect s ⟨⟨0, 0, -5, 1⟩, ⟨0, 0, 1, 0⟩⟩ = [⟨4, s⟩, ⟨6, s⟩] ∧
    sphereLocalIntersect s ⟨⟨0, 1, -5, 1⟩, ⟨0, 0, 1, 0⟩⟩ = [⟨5, s⟩, ⟨5, s⟩] ∧
    sphereLocalIntersect s ⟨⟨0, 2, -5, 1⟩, ⟨0, 0, 1, 0⟩⟩ = [] ∧
    sphereLocalIntersect s ⟨⟨0, 0, 0, 1⟩, ⟨0, 0, 1, 0⟩⟩ = [⟨-1, s⟩, ⟨1, s⟩] ∧
    sphereLocalIntersect s ⟨⟨0, 0, 5, 1⟩, ⟨0, 0, 1, 0⟩⟩ = [⟨-6, s⟩, ⟨-4, s⟩] := by
  have h4 : Real.sqrt 4 = 2 := by
    rw [show (4 : ℝ) = 2 ^ 2 by norm_num]
    exact Real.sqrt_sq (by norm_num)
  refine ⟨sphereLocalIntersect_empty_iff s r, sphereLocalIntersect_of_nonneg s r,
    ?_, ?_, ?_, ?_, ?_⟩
  · have ha : specSphereA ⟨⟨0, 0, -5, 1⟩, ⟨0, 0, 1, 0⟩⟩ = 1 := by
      norm_num [specSphereA, Tup4.dot_def]
    have hb : specSphereB ⟨⟨0, 0, -5, 1⟩, ⟨0, 0, 1, 0⟩⟩ = -10 := by
      norm_num [specSphereB, Tup4.dot_def, pointOrigin]
    have hd : specSphereDisc ⟨⟨0, 0, -5, 1⟩, ⟨0, 0, 1, 0⟩⟩ = 4 := by
      norm_num [specSphereDisc, specSphereA, specSphereB, specSphereC, Tup4.dot_def,
        pointOrigin]
    rw [sphereLocalIntersect_of_nonneg s _ (by rw [hd]; norm_num), ha, hb, hd, h4]
    norm_num
  · have ha : specSphereA ⟨⟨0, 1, -5, 1⟩, ⟨0, 0, 1, 0⟩⟩ = 1 := by
      norm_num [specSphereA, Tup4.dot_def]
    have hb : specSphereB ⟨⟨0, 1, -5, 1⟩, ⟨0, 0, 1, 0⟩⟩ = -10 := by
      norm_num [specSphereB, Tup4.dot_def, pointOrigin]
    have hd : specSphereDisc ⟨⟨0, 1, -5, 1⟩, ⟨0, 0, 1, 0⟩⟩ = 0 := by
      norm_num [specSphereDisc, specSphereA, specSphereB, specSphereC, Tup4.dot_def,
        pointOrigin]
    rw [sphereLocalIntersect_of_nonneg s _ (by rw [hd]), ha, hb, hd, Real.sqrt_zero]
    norm_num
  · rw [sphereLocalIntersect_empty_iff]
    norm_num [specSphereDisc, specSphereA, specSphereB, specSphereC, Tup4.dot_def,
      pointOrigin]
  · have ha : specSphereA ⟨⟨0, 0, 0, 1⟩, ⟨0, 0, 1, 0⟩⟩ = 1 := by
      norm_num [specSphereA, Tup4.dot_def]
    have hb : specSphereB ⟨⟨0, 0, 0, 1⟩, ⟨0, 0, 1, 0⟩⟩ = 0 := by
      norm_num [specSphereB, Tup4.dot_def, pointOrigin]
    have hd : specSphereDisc ⟨⟨0, 0, 0, 1⟩, ⟨0, 0, 1, 0⟩⟩ = 4 := by
      norm_num [specSphereDisc, specSphereA, specSphereB, specSphereC, Tup4.dot_def,
        pointOrigin]
    rw [sphereLocalIntersect_of_nonneg s _ (by rw [hd]; norm_num), ha, hb, hd, h4]
    norm_num
  · have ha : specSphereA ⟨⟨0, 0, 5, 1⟩, ⟨0, 0, 1, 0⟩⟩ = 1 := by
      norm_num [specSphereA, Tup4.dot_def]
    have hb : specSphereB ⟨⟨0, 0, 5, 1⟩, ⟨0, 0, 1, 0⟩⟩ = 10 := by
      norm_num [specSphereB, Tup4.dot_def, pointOrigin]
    have hd : specSphereDisc ⟨⟨0, 0, 5, 1⟩, ⟨0, 0, 1, 0⟩⟩ = 4 := by
      norm_num [specSphereDisc, specSphereA, specSphereB, specSphereC, Tup4.dot_def,
        pointOrigin]
    rw [sphereLocalIntersect_of_nonneg s _ (by rw [hd]; norm_num), ha, hb, hd, h4]
    norm_num

/-! ## C4 — `reflected_color` and the depth floor -/

/-- `comps` with the reflectivity of its object's material overwritten
(statement apparatus for claim C4). -/
noncomputable def Computations.withReflective (comps : Computations) (ρ : ℝ) : Computations :=
  { comps with
    object := { comps.object with
      material := { comps.object.material with reflective := ρ } } }

/-- Claim C4: `reflected_color(comps, depth)` is black whenever the remaining
depth is 0 (`depth ≤ 0` for the `usize` counter) or the material's
reflectivity is 0; otherwise it is `color_at` of the reflection ray (origin
`over_point`, direction `reflectv`) at `depth − 1`, scaled by the
reflectivity; and consequently `shade_hit` at depth 0 does not change when
the reflectivity is replaced by 0. -/
theorem reflected_color_spec (w : World) (comps : Computations) (remaining : ℕ) :
    (remaining = 0 ∨ comps.object.material.reflective = 0 →
      w.reflected_color comps remaining = black) ∧
    (remaining ≠ 0 → comps.object.material.reflective ≠ 0 →
      w.reflected_color comps remaining =
        w.color_at ⟨comps.over_point, comps.reflectv⟩ (remaining - 1) *
          comps.object.material.reflective) ∧
    w.shade_hit (comps.withReflective 0) 0 = w.shade_hit comps 0 := by
  refine ⟨fun h => ?_, fun h1 h2 => ?_, ?_⟩
  · rw [World.reflected_color]
    rw [dif_pos h]
  · rw [World.reflected_color]
    rw [dif_neg (by push_neg; exact ⟨h1, h2⟩)]
  · rw [World.shade_hit, World.shade_hit]
    have hrefl : ∀ c : Computations, w.reflected_color c 0 = black := by
      intro c
      rw [World.reflected_color]
      rw [dif_pos (Or.inl rfl)]
    rw [hrefl, hrefl]
    rfl

/-! ## C5 — `color_at` terminates -/

/-- Claim C5: `color_at` always returns in finite time — the evaluator that
charges one unit of fuel per nested `color_at` activation and aborts with
`none` when the fuel runs out never aborts once the fuel exceeds the
remaining reflection depth, because the mutual recursion
`color_at → shade_hit → reflected_color → color_at` strictly decreases the
remaining depth and bottoms out at the depth floor. -/
theorem color_at_terminates (w : World) (r : RayT) (remaining fuel : ℕ)
    (h : remaining < fuel) :
    colorAtFuel w fuel r remaining = some (w.color_at r remaining) := by
  induction fuel generalizing r remaining with
  | zero => omega
  | succ f ih =>
    rw [colorAtFuel, World.color_at]
    cases hh : hit (w.intersect r) with
    | none => rfl
    | some i =>
      dsimp only
      rw [World.shade_hit]
      by_cases hc : remaining = 0 ∨ (i.prepare_computations r).object.material.reflective = 0
      · rw [World.reflected_color, dif_pos hc]
        simp only [if_pos hc]
        rfl
      · have hrem : remaining - 1 < f := by
          rcases not_or.mp hc with ⟨h0, -⟩
          omega
        rw [World.reflected_color, dif_neg hc]
        simp only [if_neg hc, ih _ _ hrem, Option.map_some]
        rfl

/-- The lower mirror of the two-facing-mirrors scene
(`color_at_with_mutually_reflective_surfaces` in `src/world.rs`): a plane at
`y = −1` with reflectivity 1. -/
noncomputable def mirrorLower : ShapeD :=
  ⟨.plane, translation 0 (-1) 0, { Material.new with reflective := 1 }⟩

/-- The upper mirror: a plane at `y = 1` with reflectivity 1. -/
noncomputable def mirrorUpper : ShapeD :=
  ⟨.plane, translation 0 1 0, { Material.new with reflective := 1 }⟩

/-- The two-facing-mirrors world: both planes and a white light at the
origin. -/
noncomputable def mirrorWorld : World :=
  ⟨[mirrorLower, mirrorUpper], ⟨pointOrigin, white⟩⟩

/-- The ray bouncing between the two mirrors: origin at the origin, pointing
straight up. -/
def mirrorRay : RayT := ⟨pointOrigin, ⟨0, 1, 0, 0⟩⟩

/-- Witness for C5 at the two-facing-mirrors scene: with fuel
`MAX_REFLECTION_DEPTH + 1` the instrumented evaluator completes and agrees
with `color_at` at depth `MAX_REFLECTION_DEPTH`. -/
theorem color_at_terminates_witness :
    colorAtFuel mirrorWorld (MAX_REFLECTION_DEPTH + 1) mirrorRay MAX_REFLECTION_DEPTH =
      some (mirrorWorld.color_at mirrorRay MAX_REFLECTION_DEPTH) :=
  color_at_terminates mirrorWorld mirrorRay MAX_REFLECTION_DEPTH
    (MAX_REFLECTION_DEPTH + 1) (Nat.lt_succ_self MAX_REFLECTION_DEPTH)

/-! ## C1 — `hit` selects the first intersection of minimal non-negative `t` -/

theorem minFold_mem (a : Inter) (l : List Inter) :
    l.foldl (fun acc yv => if yv.t < acc.t then yv else acc) a ∈ a :: l := by
  induction l generalizing a with
  | nil => simp
  | cons z rest ih =>
    rw [List.foldl_cons]
    rcases List.mem_cons.mp (ih (if z.t < a.t then z else a)) with h1 | h2
    · rw [h1]
      split_ifs <;> simp
    · exact List.mem_cons_of_mem _ (List.mem_cons_of_mem _ h2)

theorem minFold_le (a : Inter) (l : List Inter) :
    ∀ j ∈ a :: l, (l.foldl (fun acc yv => if yv.t < acc.t then yv else acc) a).t ≤ j.t := by
  induction l generalizing a with
  | nil =>
    intro j hj
    rcases List.mem_cons.mp hj with rfl | h
    · exact le_refl _
    · simp at h
  | cons z rest ih =>
    intro j hj
    rw [List.foldl_cons]
    have hle : (if z.t < a.t then z else a).t ≤ a.t ∧ (if z.t < a.t then z else a).t ≤ z.t := by
      by_cases h : z.t < a.t
      · rw [if_pos h]
        exact ⟨le_of_lt h, le_refl _⟩
      · rw [if_neg h]
        exact ⟨le_refl _, not_lt.mp h⟩
    rcases List.mem_cons.mp hj with rfl | hj2
    · exact le_trans (ih _ _ (List.mem_cons_self _ _)) hle.1
    · rcases List.mem_cons.mp hj2 with rfl | hj3
      · exact le_trans (ih _ _ (List.mem_cons_self _ _)) hle.2
      · exact ih _ j (List.mem_cons_of_mem _ hj3)

theorem minFold_first (a : Inter) (l : List Inter) :
    l.foldl (fun acc yv => if yv.t < acc.t then yv else acc) a = a ∨
      ∃ pre post,
        l = pre ++ (l.foldl (fun acc yv => if yv.t < acc.t then yv else acc) a) :: post ∧
        (l.foldl (fun acc yv => if yv.t < acc.t then yv else acc) a).t < a.t ∧
        ∀ j ∈ pre, (l.foldl (fun acc yv => if yv.t < acc.t then yv else acc) a).t < j.t := by
  induction l generalizing a with
  | nil => exact Or.inl rfl
  | cons z rest ih =>
    rw [List.foldl_cons]
    by_cases hz : z.t < a.t
    · rw [if_pos hz]
      rcases ih z with h1 | ⟨pre, post, hdec, hlt, hpre⟩
      · right
        refine ⟨[], rest, ?_, ?_, ?_⟩
        · rw [h1]
          rfl
        · rw [h1]
          exact hz
        · intro j hj
          simp at hj
      · right
        refine ⟨z :: pre, post, ?_, lt_trans hlt hz, ?_⟩
        · rw [List.cons_append]
          rw [← hdec]
        · intro j hj
          rcases List.mem_cons.mp hj with rfl | hj2
          · exact hlt
          · exact hpre j hj2
    · rw [if_neg hz]
      rcases ih a with h1 | ⟨pre, post, hdec, hlt, hpre⟩
      · exact Or.inl h1
      · right
        refine ⟨z :: pre, post, ?_, hlt, ?_⟩
        · rw [List.cons_append]
          rw [← hdec]
        · intro j hj
          rcases List.mem_cons.mp hj with rfl | hj2
          · exact lt_of_lt_of_le hlt (not_lt.mp hz)
          · exact hpre j hj2

theorem filter_split {p : Inter → Bool} :
    ∀ (xs pre1 : List Inter) (m : Inter) (post1 : List Inter),
      xs.filter p = pre1 ++ m :: post1 →
      ∃ pre post, xs = pre ++ m :: post ∧ pre.filter p = pre1 := by
  intro xs
  induction xs with
  | nil =>
    intro pre1 m post1 h
    simp at h
  | cons x rest ih =>
    intro pre1 m post1 h
    by_cases hx : p x
    · rw [List.filter_cons_of_pos hx] at h
      cases pre1 with
      | nil =>
        rw [List.nil_append] at h
        injection h with h1 h2
        refine ⟨[], rest, ?_, rfl⟩
        rw [h1]
        rfl
      | cons q pre1t =>
        rw [List.cons_append] at h
        injection h with h1 h2
        obtain ⟨pre, post, rfl, hfil⟩ := ih pre1t m post1 h2
        refine ⟨x :: pre, post, rfl, ?_⟩
        rw [List.filter_cons_of_pos hx, hfil, h1]
    · rw [List.filter_cons_of_neg hx] at h
      obtain ⟨pre, post, rfl, hfil⟩ := ih pre1 m post1 h
      refine ⟨x :: pre, post, rfl, ?_⟩
      rw [List.filter_cons_of_neg hx, hfil]

theorem find?_append_cons {p : Inter → Bool} (pre : List Inter) (m : Inter)
    (post : List Inter) (hpre : ∀ j ∈ pre, p j = false) (hm : p m = true) :
    (pre ++ m :: post).find? p = some m := by
  induction pre with
  | nil =>
    rw [List.nil_append]
    exact List.find?_cons_of_pos _ hm
  | cons q pret ih =>
    have hq : p q = false := hpre q (List.mem_cons_self _ _)
    rw [List.cons_append, List.find?_cons_of_neg _ (by simp [hq])]
    exact ih fun j hj => hpre j (List.mem_cons_of_mem _ hj)

/-- Claim C1: `hit(xs)` equals the specification-side selection `specHit xs`
(the first element of `xs` whose `t` is non-negative and minimal among the
non-negative `t`s — so ties on the minimal non-negative `t` go to the
earliest element in the input order), and it is `none` exactly when every
intersection in `xs` has a negative `t`. -/
theorem hit_eq_specHit (xs : List Inter) :
    hit xs = specHit xs ∧ (hit xs = none ↔ ∀ i ∈ xs, i.t < 0) := by
  cases hfil : xs.filter (fun i => decide (0 ≤ i.t)) with
  | nil =>
    have hneg : ∀ i ∈ xs, i.t < 0 := by
      intro i hi
      by_contra hge
      have h0 : (0 : ℝ) ≤ i.t := not_lt.mp hge
      have hmem : i ∈ xs.filter (fun i => decide (0 ≤ i.t)) :=
        List.mem_filter.mpr ⟨hi, by simp [h0]⟩
      rw [hfil] at hmem
      simp at hmem
    have h1 : hit xs = none := by
      rw [hit, hfil]
      rfl
    have h2 : specHit xs = none := by
      rw [specHit, List.find?_eq_none]
      intro i hi
      rw [decide_eq_true_eq]
      rintro ⟨hge, -⟩
      exact absurd hge (not_le.mpr (hneg i hi))
    refine ⟨by rw [h1, h2], ?_⟩
    rw [h1]
    exact iff_of_true rfl hneg
  | cons y rest =>
    have hhit : hit xs =
        some (rest.foldl (fun acc yv => if yv.t < acc.t then yv else acc) y) := by
      rw [hit, hfil]
      rfl
    set m := rest.foldl (fun acc yv => if yv.t < acc.t then yv else acc) y with hmdef
    have hmemf : m ∈ xs.filter (fun i => decide (0 ≤ i.t)) := by
      rw [hfil]
      exact minFold_mem y rest
    have hmemxs : m ∈ xs := (List.mem_filter.mp hmemf).1
    have hm0 : (0 : ℝ) ≤ m.t := by
      have := (List.mem_filter.mp hmemf).2
      simpa using this
    have hminle : ∀ j ∈ xs, 0 ≤ j.t → m.t ≤ j.t := by
      intro j hj hj0
      have hjf : j ∈ xs.filter (fun i => decide (0 ≤ i.t)) :=
        List.mem_filter.mpr ⟨hj, by simp [hj0]⟩
      rw [hfil] at hjf
      exact minFold_le y rest j hjf
    have hdec : ∃ pre1 post1,
        xs.filter (fun i => decide (0 ≤ i.t)) = pre1 ++ m :: post1 ∧
          ∀ j ∈ pre1, m.t < j.t := by
      rcases minFold_first y rest with h1 | ⟨pre, post, hd, hlt, hpre⟩
      · refine ⟨[], rest, ?_, by simp⟩
        rw [hfil, hmdef, h1]
        rfl
      · refine ⟨y :: pre, post, ?_, ?_⟩
        · rw [hfil, List.cons_append, ← hd]
        · intro j hj
          rcases List.mem_cons.mp hj with rfl | hj2
          · exact hlt
          · exact hpre j hj2
    obtain ⟨pre1, post1, hfil2, hpre1⟩ := hdec
    obtain ⟨pre, post, hxs, hprefil⟩ := filter_split xs pre1 m post1 hfil2
    have hspec : specHit xs = some m := by
      rw [specHit]
      conv_lhs => rw [hxs]
      apply find?_append_cons
      · intro j hj
        rw [decide_eq_false_iff_not]
        rintro ⟨hj0, hjmin⟩
        have hjf : j ∈ pre.filter (fun i => decide (0 ≤ i.t)) :=
          List.mem_filter.mpr ⟨hj, by simp [hj0]⟩
        rw [hprefil] at hjf
        have hlt := hpre1 j hjf
        have hle := hjmin m (List.mem_append_right _ (List.mem_cons_self _ _)) hm0
        linarith
      · rw [decide_eq_true_eq]
        refine ⟨hm0, fun j hj => hminle j ?_⟩
        rw [hxs]
        exact hj
    refine ⟨by rw [hhit, hspec], ?_⟩
    rw [hhit]
    refine iff_of_false (by simp) fun hall => absurd (hall m hmemxs) (not_lt.mpr hm0)

/-! ## C8 — PPM body: line length, wrap points, row terminators

Token-level facts first: every rendered component is at most three digit
characters, and no token contains a newline. -/

theorem clamp_le_255 (c : ℚ) : clamp_and_scale_color_value c ≤ 255 := by
  unfold clamp_and_scale_color_value MAX_COLOR_VALUE
  split_ifs with h1 h2
  · omega
  · omega
  · have hc1 : c ≤ 1 := not_lt.mp h2
    rw [Int.toNat_le]
    have hfl : ⌊c * ((255 : ℕ) : ℚ) + 1 / 2⌋ < ((256 : ℕ) : ℤ) := by
      rw [Int.floor_lt]
      push_cast
      nlinarith
    omega

theorem natDigits_length_le (k : ℕ) : ∀ n, n < 10 ^ (k + 1) → (natDigits n).length ≤ k + 1 := by
  induction k with
  | zero =>
    intro n h
    rw [natDigits, dif_pos (by omega)]
    simp
  | succ k ih =>
    intro n h
    by_cases h10 : n < 10
    · rw [natDigits, dif_pos h10]
      simp
    · rw [natDigits, dif_neg h10]
      rw [List.length_append]
      have hdiv : n / 10 < 10 ^ (k + 1) := by
        rw [Nat.div_lt_iff_lt_mul (by omega)]
        calc n < 10 ^ (k + 1 + 1) := h
        _ = 10 ^ (k + 1) * 10 := by ring
      have := ih (n / 10) hdiv
      simp only [List.length_cons, List.length_nil]
      omega

theorem digitChar_ne_newline (n : ℕ) : Nat.digitChar n ≠ '\n' := by
  rcases Nat.lt_or_ge n 16 with h | h
  · interval_cases n <;> decide
  · have h2 : Nat.digitChar n = '*' := by
      unfold Nat.digitChar
      repeat rw [if_neg (by omega)]
    rw [h2]
    decide

theorem natDigits_no_newline (n : ℕ) : '\n' ∉ natDigits n := by
  induction n using Nat.strong_induction_on with
  | _ n ih =>
    by_cases h10 : n < 10
    · rw [natDigits, dif_pos h10]
      intro hmem
      rcases List.mem_singleton.mp hmem with h
      exact digitChar_ne_newline n h.symm
    · rw [natDigits, dif_neg h10]
      intro hmem
      rcases List.mem_append.mp hmem with h | h
      · exact ih (n / 10) (Nat.div_lt_self (by omega) (by omega)) h
      · rcases List.mem_singleton.mp h with h2
        exact digitChar_ne_newline (n % 10) h2.symm

theorem pixelGroup_length_le (c : ColorQ) : (pixelGroup c).length ≤ 11 := by
  unfold pixelGroup
  have h1 := natDigits_length_le 2 (clamp_and_scale_color_value c.r)
    (by have := clamp_le_255 c.r; omega)
  have h2 := natDigits_length_le 2 (clamp_and_scale_color_value c.g)
    (by have := clamp_le_255 c.g; omega)
  have h3 := natDigits_length_le 2 (clamp_and_scale_color_value c.b)
    (by have := clamp_le_255 c.b; omega)
  simp only [List.length_append, List.length_cons]
  omega

theorem pixelGroup_no_newline (c : ColorQ) : '\n' ∉ pixelGroup c := by
  unfold pixelGroup
  intro hmem
  rcases List.mem_append.mp hmem with h | h
  · rcases List.mem_append.mp h with h1 | h1
    · exact natDigits_no_newline _ h1
    · rcases List.mem_cons.mp h1 with h2 | h2
      · cases h2
      · exact natDigits_no_newline _ h2
  · rcases List.mem_cons.mp h with h2 | h2
    · cases h2
    · exact natDigits_no_newline _ h2

/-! Newline-free infix segments of the growing body. -/

/-- No newline-free contiguous segment of `body` is longer than `n` — the
formalization of "every line has at most `n` characters". -/
def NoRun (n : ℕ) (body : List Char) : Prop :=
  ∀ seg : List Char, seg <:+: body → '\n' ∉ seg → seg.length ≤ n

theorem noRun_nil (n : ℕ) : NoRun n [] := by
  intro seg hseg _
  have := hseg.length_le
  simp at this
  simp [this]

theorem mem_of_getLast?_eq {l : List Char} {a : Char} (h : l.getLast? = some a) : a ∈ l := by
  cases l with
  | nil => cases h
  | cons x xs =>
    have := List.getLast?_eq_getLast (x :: xs) (by simp)
    rw [this] at h
    injection h with h2
    rw [← h2]
    exact List.getLast_mem _

theorem getLast?_append_of_ne_nil {l l' : List Char} (h : l' ≠ []) :
    (l ++ l').getLast? = l'.getLast? := by
  rw [List.getLast?_append]
  cases hgl : l'.getLast? with
  | none =>
    rw [List.getLast?_eq_getLast _ h] at hgl
    cases hgl
  | some v => rfl

theorem infix_of_append_newline {M seg : List Char} (h : seg <:+: M ++ ['\n'])
    (hseg : '\n' ∉ seg) : seg <:+: M := by
  obtain ⟨s, t, hst⟩ := h
  rcases List.append_eq_append_iff.mp hst with ⟨a, ha1, ha2⟩ | ⟨c, hc1, hc2⟩
  · -- M = (s ++ seg) ++ a and t = a ++ ['\n']
    exact ⟨s, a, ha1.symm⟩
  · -- s ++ seg = M ++ c and ['\n'] = c ++ t
    cases c with
    | nil =>
      rw [List.append_nil] at hc1
      exact ⟨s, [], by rw [List.append_nil, hc1]⟩
    | cons c0 ct =>
      have hc0 : c0 = '\n' ∧ ct ++ t = [] := by
        rw [List.cons_append] at hc2
        injection hc2 with ha hb
        exact ⟨ha.symm, hb.symm⟩
      have hct : ct = [] := (List.append_eq_nil.mp hc0.2).1
      cases seg with
      | nil => exact ⟨[], M, by simp⟩
      | cons s0 st =>
        exfalso
        apply hseg
        have hlast : (s0 :: st).getLast? = some '\n' := by
          have h1 : (s ++ s0 :: st).getLast? = (M ++ [c0]).getLast? := by
            rw [hc1, hct]
          rw [getLast?_append_of_ne_nil (by simp), List.getLast?_concat, hc0.1] at h1
          exact h1
        exact mem_of_getLast?_eq hlast

theorem infix_split_newline {D L seg : List Char} (hD : D = [] ∨ D.getLast? = some '\n')
    (h : seg <:+: D ++ L) (hseg : '\n' ∉ seg) : seg <:+: D ∨ seg <:+: L := by
  rcases hD with rfl | hD
  · right
    simpa using h
  · obtain ⟨s, t, hst⟩ := h
    rcases List.append_eq_append_iff.mp hst with ⟨a, ha1, ha2⟩ | ⟨c, hc1, hc2⟩
    · -- D = (s ++ seg) ++ a and t = a ++ L
      exact Or.inl ⟨s, a, ha1.symm⟩
    · -- s ++ seg = D ++ c and L = c ++ t
      rcases List.append_eq_append_iff.mp hc1 with ⟨b, hb1, hb2⟩ | ⟨b, hb1, hb2⟩
      · -- D = s ++ b and seg = b ++ c
        cases b with
        | nil =>
          rw [List.nil_append] at hb2
          exact Or.inr ⟨[], t, by rw [List.nil_append, hc2, hb2]⟩
        | cons b0 bt =>
          exfalso
          apply hseg
          rw [hb2]
          apply List.mem_append_left
          have : (b0 :: bt).getLast? = some '\n' := by
            have h1 : D.getLast? = (b0 :: bt).getLast? := by
              rw [hb1, getLast?_append_of_ne_nil (by simp)]
            rw [← h1, hD]
          exact mem_of_getLast?_eq this
      · -- s = D ++ b and c = b ++ seg
        right
        refine ⟨b, t, ?_⟩
        rw [hc2, hb2, List.append_assoc]

theorem noRun_append_line {D M : List Char} {n : ℕ}
    (hD : D = [] ∨ D.getLast? = some '\n') (h1 : NoRun n D) (hM : '\n' ∉ M)
    (h2 : M.length ≤ n) : NoRun n (D ++ (M ++ ['\n'])) := by
  intro seg hseg hnl
  rcases infix_split_newline hD hseg hnl with h | h
  · exact h1 seg h hnl
  · have h3 : seg <:+: M := infix_of_append_newline h hnl
    exact le_trans h3.length_le h2

/-- Pixel groups joined by one separator character each (the claim's "newlines
are inserted only between pixels": a row's output is its groups with either a
space or a newline between consecutive groups). -/
def interleave : List (List Char) → List Char → List Char
  | [], _ => []
  | g :: _, [] => g
  | g :: gs, s :: ss => g ++ s :: interleave gs ss

/-- The shape of one image row's serialized output: the pixel groups in
order, separated by single spaces or single newlines, terminated by a
newline. -/
def RowShape (row : List ColorQ) (out : List Char) : Prop :=
  ∃ seps : List Char, seps.length = row.length - 1 ∧
    (∀ s ∈ seps, s = ' ' ∨ s = '\n') ∧
    out = interleave (row.map pixelGroup) seps ++ ['\n']

theorem interleave_concat (gs : List (List Char)) (ss : List Char) (g : List Char)
    (c : Char) (h : gs.length = ss.length + 1) :
    interleave (gs ++ [g]) (ss ++ [c]) = interleave gs ss ++ c :: g := by
  induction gs generalizing ss with
  | nil => simp at h
  | cons g0 gs0 ih =>
    cases ss with
    | nil =>
      have hg : gs0 = [] := by simpa using h
      subst hg
      rfl
    | cons s0 ss0 =>
      have h2 : gs0.length = ss0.length + 1 := by simpa using h
      show g0 ++ s0 :: interleave (gs0 ++ [g]) (ss0 ++ [c]) =
        (g0 ++ s0 :: interleave gs0 ss0) ++ c :: g
      rw [ih ss0 h2]
      simp

/-- The invariant of the pixel loop: the body so far is the starting body
`B0` plus the serialization `out` of the pixels already `done` (trailing one
separator character), it splits into newline-terminated complete lines `D`
with no newline-free run over 69 characters and a current line `L`,
`last_newline_idx` points at `D`'s final newline (or 0 before any newline),
and at most 58 columns have accumulated since it. -/
def PpmInv (B0 : List Char) (done : List ColorQ) (st : List Char × ℕ) : Prop :=
  ∃ D L out,
    st.1 = B0 ++ out ∧ st.1 = D ++ L ∧ '\n' ∉ L ∧ NoRun 69 D ∧
    ((D = [] ∧ st.2 = 0) ∨ (D.getLast? = some '\n' ∧ st.2 = D.length - 1)) ∧
    st.1.length ≤ st.2 + 58 ∧
    ((done = [] ∧ out = []) ∨
      (done ≠ [] ∧ ∃ seps c, seps.length = done.length - 1 ∧
        (∀ s ∈ seps, s = ' ' ∨ s = '\n') ∧ (c = ' ' ∨ c = '\n') ∧
        out = interleave (done.map pixelGroup) seps ++ [c]))

theorem shape_extend (done : List ColorQ) (out : List Char) (p : ColorQ) (cNew : Char)
    (hshape : (done = [] ∧ out = []) ∨
      (done ≠ [] ∧ ∃ seps c, seps.length = done.length - 1 ∧
        (∀ s ∈ seps, s = ' ' ∨ s = '\n') ∧ (c = ' ' ∨ c = '\n') ∧
        out = interleave (done.map pixelGroup) seps ++ [c])) :
    ∃ seps, seps.length = (done ++ [p]).length - 1 ∧
      (∀ s ∈ seps, s = ' ' ∨ s = '\n') ∧
      out ++ pixelGroup p ++ [cNew] =
        interleave ((done ++ [p]).map pixelGroup) seps ++ [cNew] := by
  rcases hshape with ⟨rfl, rfl⟩ | ⟨hne, seps, c, hlen, hmem, hc, hout⟩
  · refine ⟨[], by simp, by simp, ?_⟩
    rfl
  · have hpos : 1 ≤ done.length := List.length_pos.mpr hne
    refine ⟨seps ++ [c], ?_, ?_, ?_⟩
    · rw [List.length_append, hlen]
      simp
      omega
    · intro s hs
      rcases List.mem_append.mp hs with h | h
      · exact hmem s h
      · rcases List.mem_singleton.mp h with rfl
        exact hc
    · rw [hout, List.map_append]
      simp only [List.map_cons, List.map_nil]
      have hlen2 : (List.map pixelGroup done).length = seps.length + 1 := by
        rw [List.length_map, hlen]
        omega
      rw [interleave_concat _ _ _ _ hlen2]
      simp

theorem pixelChars_no_newline (p : ColorQ) : '\n' ∉ pixelChars p := by
  unfold pixelChars
  intro h
  rcases List.mem_append.mp h with h | h
  · exact pixelGroup_no_newline p h
  · rcases List.mem_singleton.mp h with h2
    exact absurd h2 (by decide)

theorem ppmStep_preserves (rowLen : ℕ) (B0 : List Char) (done : List ColorQ)
    (st : List Char × ℕ) (k : ℕ) (p : ColorQ) (hk : k ≠ rowLen - 1)
    (hinv : PpmInv B0 done st) :
    PpmInv B0 (done ++ [p]) (ppmStep rowLen st (k, p)) := by
  obtain ⟨D, L, out, hout, hDL, hLnl, hNoRun, hidx, hmeas, hshape⟩ := hinv
  have hpgnl : '\n' ∉ pixelGroup p := pixelGroup_no_newline p
  have hpglen : (pixelGroup p).length ≤ 11 := pixelGroup_length_le p
  have hD : D = [] ∨ D.getLast? = some '\n' := by
    rcases hidx with ⟨h1, -⟩ | ⟨h1, -⟩
    · exact Or.inl h1
    · exact Or.inr h1
  have hL58 : L.length ≤ 58 := by
    have hlen : st.1.length = D.length + L.length := by
      rw [hDL, List.length_append]
    rcases hidx with ⟨h1, h2⟩ | ⟨h1, h2⟩
    · subst h1
      simp only [List.length_nil] at hlen
      omega
    · have hDne : D ≠ [] := by
        intro hc
        rw [hc] at h1
        cases h1
      have hDpos : 1 ≤ D.length := List.length_pos.mpr hDne
      omega
  have hdropc : (st.1 ++ pixelChars p).dropLast = st.1 ++ pixelGroup p := by
    show (st.1 ++ (pixelGroup p ++ [' '])).dropLast = st.1 ++ pixelGroup p
    rw [← List.append_assoc]
    exact List.dropLast_concat
  simp only [ppmStep]
  split_ifs with hcond
  · -- the wrap branch: pop the trailing space, append a newline
    rw [hdropc]
    refine ⟨st.1 ++ pixelGroup p ++ ['\n'], [], out ++ pixelGroup p ++ ['\n'],
      ?_, ?_, ?_, ?_, ?_, ?_, ?_⟩
    · show st.1 ++ pixelGroup p ++ ['\n'] = B0 ++ (out ++ pixelGroup p ++ ['\n'])
      rw [hout]
      simp [List.append_assoc]
    · show st.1 ++ pixelGroup p ++ ['\n'] = st.1 ++ pixelGroup p ++ ['\n'] ++ []
      rw [List.append_nil]
    · simp
    · show NoRun 69 (st.1 ++ pixelGroup p ++ ['\n'])
      have heq : st.1 ++ pixelGroup p ++ ['\n'] = D ++ ((L ++ pixelGroup p) ++ ['\n']) := by
        rw [hDL]
        simp [List.append_assoc]
      rw [heq]
      refine noRun_append_line hD hNoRun ?_ ?_
      · intro hmem
        rcases List.mem_append.mp hmem with h | h
        · exact hLnl h
        · exact hpgnl h
      · rw [List.length_append]
        omega
    · refine Or.inr ⟨?_, rfl⟩
      show (st.1 ++ pixelGroup p ++ ['\n']).getLast? = some '\n'
      exact List.getLast?_concat _
    · show (st.1 ++ pixelGroup p ++ ['\n']).length ≤
        (st.1 ++ pixelGroup p ++ ['\n']).length - 1 + 58
      rw [List.length_append, List.length_append]
      simp only [List.length_cons, List.length_nil]
      omega
    · obtain ⟨seps, hl, hm, heq⟩ := shape_extend done out p '\n' hshape
      exact Or.inr ⟨by simp, seps, '\n', hl, hm, Or.inr rfl, heq⟩
  · -- no wrap: the body just grows by the pixel's characters
    have hlen2 : (st.1 ++ pixelChars p).length ≤ st.2 + 58 := by
      rcases not_and_or.mp hcond with h | h
      · omega
      · exact absurd hk h
    refine ⟨D, L ++ pixelChars p, out ++ pixelGroup p ++ [' '],
      ?_, ?_, ?_, hNoRun, hidx, hlen2, ?_⟩
    · show st.1 ++ pixelChars p = B0 ++ (out ++ pixelGroup p ++ [' '])
      rw [hout, pixelChars]
      simp [List.append_assoc]
    · show st.1 ++ pixelChars p = D ++ (L ++ pixelChars p)
      rw [hDL]
      simp [List.append_assoc]
    · intro hmem
      rcases List.mem_append.mp hmem with h | h
      · exact hLnl h
      · exact pixelChars_no_newline p h
    · obtain ⟨seps, hl, hm, heq⟩ := shape_extend done out p ' ' hshape
      exact Or.inr ⟨by simp, seps, ' ', hl, hm, Or.inl rfl, heq⟩

theorem ppm_fold_front (rowLen : ℕ) (B0 : List Char) :
    ∀ (ps : List ColorQ) (k : ℕ) (done : List ColorQ) (st : List Char × ℕ),
      (∀ j, k ≤ j → j < k + ps.length → j ≠ rowLen - 1) →
      PpmInv B0 done st →
      PpmInv B0 (done ++ ps) ((List.enumFrom k ps).foldl (ppmStep rowLen) st) := by
  intro ps
  induction ps with
  | nil =>
    intro k done st _ hinv
    simpa using hinv
  | cons p ps ih =>
    intro k done st hidx hinv
    rw [List.enumFrom_cons, List.foldl_cons]
    have h1 := ppmStep_preserves rowLen B0 done st k p
      (hidx k (le_refl _) (by simp)) hinv
    have h2 := ih (k + 1) (done ++ [p]) (ppmStep rowLen st (k, p))
      (fun j hj1 hj2 => hidx j (by omega) (by simp only [List.length_cons]; omega)) h1
    simpa [List.append_assoc] using h2

theorem ppmRow_spec (st : List Char × ℕ) (row : List ColorQ) (hrow : row ≠ [])
    (hst : PpmInv st.1 [] st) :
    ∃ out, (ppmRow st row).1 = st.1 ++ out ∧ RowShape row out ∧
      PpmInv (ppmRow st row).1 [] (ppmRow st row) := by
  have hsplit : row.dropLast ++ [row.getLast hrow] = row :=
    List.dropLast_append_getLast hrow
  have hlenrow : row.length = row.dropLast.length + 1 := by
    conv_lhs => rw [← hsplit]
    simp
  have henum : row.enum =
      List.enumFrom 0 row.dropLast ++ [(row.dropLast.length, row.getLast hrow)] := by
    show List.enumFrom 0 row = _
    conv_lhs => rw [← hsplit]
    rw [List.enumFrom_append]
    simp
  have hmid := ppm_fold_front row.length st.1 row.dropLast 0 [] st
    (fun j _ hj2 => by omega) hst
  rw [List.nil_append] at hmid
  obtain ⟨D, L, out, hout, hDL, hLnl, hNoRun, hidx, hmeas, hshape⟩ := hmid
  have hD : D = [] ∨ D.getLast? = some '\n' := by
    rcases hidx with ⟨h1, -⟩ | ⟨h1, -⟩
    · exact Or.inl h1
    · exact Or.inr h1
  set st1 := (List.enumFrom 0 row.dropLast).foldl (ppmStep row.length) st with hst1
  have hL58 : L.length ≤ 58 := by
    have hlen : st1.1.length = D.length + L.length := by
      rw [hDL, List.length_append]
    rcases hidx with ⟨h1, h2⟩ | ⟨h1, h2⟩
    · rw [h1] at hlen
      simp only [List.length_nil] at hlen
      omega
    · have hDne : D ≠ [] := by
        intro hc
        rw [hc] at h1
        cases h1
      have hDpos : 1 ≤ D.length := List.length_pos.mpr hDne
      omega
  have hstep : ppmStep row.length st1 (row.dropLast.length, row.getLast hrow) =
      (st1.1 ++ pixelChars (row.getLast hrow), st1.2) := by
    simp only [ppmStep]
    rw [if_neg]
    intro hc
    exact hc.2 (by omega)
  have hrowval : ppmRow st row =
      (st1.1 ++ pixelGroup (row.getLast hrow) ++ ['\n'],
        (st1.1 ++ pixelGroup (row.getLast hrow) ++ ['\n']).length - 1) := by
    simp only [ppmRow]
    rw [henum, List.foldl_append]
    simp only [List.foldl_cons, List.foldl_nil]
    rw [← hst1, hstep]
    have hdropc : (st1.1 ++ pixelChars (row.getLast hrow)).dropLast =
        st1.1 ++ pixelGroup (row.getLast hrow) := by
      show (st1.1 ++ (pixelGroup (row.getLast hrow) ++ [' '])).dropLast = _
      rw [← List.append_assoc]
      exact List.dropLast_concat
    rw [hdropc]
  obtain ⟨seps, hsl, hsm, hseq⟩ :=
    shape_extend row.dropLast out (row.getLast hrow) '\n' hshape
  refine ⟨out ++ pixelGroup (row.getLast hrow) ++ ['\n'], ?_, ?_, ?_⟩
  · rw [hrowval, hout]
    simp [List.append_assoc]
  · refine ⟨seps, ?_, hsm, ?_⟩
    · rw [hsplit] at hsl
      exact hsl
    · conv_lhs => rw [hseq]
      rw [hsplit]
  · rw [hrowval]
    have hnonempty : 1 ≤ (st1.1 ++ pixelGroup (row.getLast hrow) ++ ['\n']).length := by
      simp only [List.length_append, List.length_cons, List.length_nil]
      omega
    refine ⟨st1.1 ++ pixelGroup (row.getLast hrow) ++ ['\n'], [], [],
      by rw [List.append_nil], by rw [List.append_nil], by simp, ?_, ?_, ?_, Or.inl ⟨rfl, rfl⟩⟩
    · show NoRun 69 (st1.1 ++ pixelGroup (row.getLast hrow) ++ ['\n'])
      have heq : st1.1 ++ pixelGroup (row.getLast hrow) ++ ['\n'] =
          D ++ ((L ++ pixelGroup (row.getLast hrow)) ++ ['\n']) := by
        rw [hDL]
        simp [List.append_assoc]
      rw [heq]
      refine noRun_append_line hD hNoRun ?_ ?_
      · intro hmem
        rcases List.mem_append.mp hmem with h | h
        · exact hLnl h
        · exact pixelGroup_no_newline _ h
      · rw [List.length_append]
        have := pixelGroup_length_le (row.getLast hrow)
        omega
    · exact Or.inr ⟨List.getLast?_concat _, rfl⟩
    · show (st1.1 ++ pixelGroup (row.getLast hrow) ++ ['\n']).length ≤
        (st1.1 ++ pixelGroup (row.getLast hrow) ++ ['\n']).length - 1 + 58
      omega

theorem ppm_grid_fold :
    ∀ (grid : List (List ColorQ)) (st : List Char × ℕ),
      (∀ row ∈ grid, row ≠ []) → PpmInv st.1 [] st →
      ∃ outs, List.Forall₂ RowShape grid outs ∧
        (grid.foldl ppmRow st).1 = st.1 ++ outs.flatten ∧
        PpmInv (grid.foldl ppmRow st).1 [] (grid.foldl ppmRow st) := by
  intro grid
  induction grid with
  | nil =>
    intro st _ hst
    exact ⟨[], List.Forall₂.nil, by simp, hst⟩
  | cons row grid ih =>
    intro st h hst
    rw [List.foldl_cons]
    obtain ⟨out, hbody, hshape, hinv⟩ :=
      ppmRow_spec st row (h row (List.mem_cons_self _ _)) hst
    obtain ⟨outs, hall, hbody2, hinv2⟩ :=
      ih (ppmRow st row) (fun r hr => h r (List.mem_cons_of_mem _ hr)) hinv
    refine ⟨out :: outs, List.Forall₂.cons hshape hall, ?_, hinv2⟩
    rw [hbody2, hbody]
    simp [List.append_assoc]

/-- Counterexample to claim C8: for the 0×2 canvas (two empty rows) the body
is a single newline — the second row-end `pop` removes the first row's
terminating newline — so it is not the case that each image row's output
ends with its own newline character (that would force at least two
characters in the flattened per-row decomposition). -/
theorem ppm_rows_counterexample :
    construct_ppm_body [([] : List ColorQ), []] = ['\n'] ∧
    ¬ ∃ outs : List (List Char), outs.length = 2 ∧
        (∀ o ∈ outs, o.getLast? = some '\n') ∧
        construct_ppm_body [([] : List ColorQ), []] = outs.flatten := by
  have hbody : construct_ppm_body [([] : List ColorQ), []] = ['\n'] := by rfl
  refine ⟨hbody, ?_⟩
  rintro ⟨outs, hlen, hlast, hjoin⟩
  rw [hbody] at hjoin
  match outs, hlen with
  | [o1, o2], _ =>
    have h1 : o1 ≠ [] := by
      intro hc
      have := hlast o1 (List.mem_cons_self _ _)
      rw [hc] at this
      cases this
    have h2 : o2 ≠ [] := by
      intro hc
      have := hlast o2 (List.mem_cons_of_mem _ (List.mem_cons_self _ _))
      rw [hc] at this
      cases this
    have hl1 : 1 ≤ o1.length := List.length_pos.mpr h1
    have hl2 : 1 ≤ o2.length := List.length_pos.mpr h2
    have hflat : (List.flatten [o1, o2]).length = o1.length + o2.length := by
      simp
    have : (1 : ℕ) = o1.length + o2.length := by
      rw [← hflat, ← hjoin]
      rfl
    omega

/-- Claim C8 as amended (restricted to canvases whose rows each contain at
least one pixel — for a zero-width canvas with several rows the row-end
`pop` of a later row deletes the previous row's newline, see the
counterexample): every newline-free contiguous segment of the body has at
most 70 characters (no line exceeds 70), and the body is exactly the rows'
pixel groups in order, with single spaces or single newlines between
adjacent groups — never inside a group — and a terminating newline ending
each row's output. -/
theorem ppm_body_spec (grid : List (List ColorQ)) (h : ∀ row ∈ grid, row ≠ []) :
    (∀ seg : List Char, seg <:+: construct_ppm_body grid → '\n' ∉ seg →
      seg.length ≤ 70) ∧
    ∃ outs : List (List Char), List.Forall₂ RowShape grid outs ∧
      construct_ppm_body grid = outs.flatten := by
  have hstart : PpmInv ((⟨[], 0⟩ : List Char × ℕ)).1 [] (⟨[], 0⟩ : List Char × ℕ) := by
    refine ⟨[], [], [], rfl, rfl, by simp, noRun_nil 69, Or.inl ⟨rfl, rfl⟩, ?_, Or.inl ⟨rfl, rfl⟩⟩
    simp
  obtain ⟨outs, hall, hbody, hinv⟩ := ppm_grid_fold grid ⟨[], 0⟩ h hstart
  have hcpb : construct_ppm_body grid = (grid.foldl ppmRow ⟨[], 0⟩).1 := rfl
  constructor
  · intro seg hseg hnl
    obtain ⟨D, L, out, -, hDL, hLnl, hNoRun, hidx, hmeas, -⟩ := hinv
    have hD : D = [] ∨ D.getLast? = some '\n' := by
      rcases hidx with ⟨h1, -⟩ | ⟨h1, -⟩
      · exact Or.inl h1
      · exact Or.inr h1
    have hL58 : L.length ≤ 58 := by
      have hlen : (grid.foldl ppmRow ⟨[], 0⟩).1.length = D.length + L.length := by
        rw [hDL, List.length_append]
      rcases hidx with ⟨h1, h2⟩ | ⟨h1, h2⟩
      · rw [h1] at hlen
        simp only [List.length_nil] at hlen
        omega
      · have hDne : D ≠ [] := by
          intro hc
          rw [hc] at h1
          cases h1
        have hDpos : 1 ≤ D.length := List.length_pos.mpr hDne
        omega
    rw [hcpb, hDL] at hseg
    rcases infix_split_newline hD hseg hnl with hsegD | hsegL
    · exact le_trans (hNoRun seg hsegD hnl) (by omega)
    · exact le_trans hsegL.length_le (by omega)
  · exact ⟨outs, hall, by rw [hcpb, hbody, List.nil_append]⟩

/-- Witness for C8 at the 5×3 canvas of the repository's own PPM test
(`constructing_ppm_pixel_data`): its three rows are nonempty, so the amended
claim applies. -/
theorem ppm_body_spec_witness :
    (∀ seg : List Char,
        seg <:+: construct_ppm_body
          [[⟨3/2, 0, 0⟩, ⟨0, 0, 0⟩, ⟨0, 0, 0⟩, ⟨0, 0, 0⟩, ⟨0, 0, 0⟩],
           [⟨0, 0, 0⟩, ⟨0, 0, 0⟩, ⟨0, 1/2, 0⟩, ⟨0, 0, 0⟩, ⟨0, 0, 0⟩],
           [⟨0, 0, 0⟩, ⟨0, 0, 0⟩, ⟨0, 0, 0⟩, ⟨0, 0, 0⟩, ⟨-(1/2), 0, 1⟩]] →
        '\n' ∉ seg → seg.length ≤ 70) ∧
    ∃ outs : List (List Char),
      List.Forall₂ RowShape
        [[⟨3/2, 0, 0⟩, ⟨0, 0, 0⟩, ⟨0, 0, 0⟩, ⟨0, 0, 0⟩, ⟨0, 0, 0⟩],
         [⟨0, 0, 0⟩, ⟨0, 0, 0⟩, ⟨0, 1/2, 0⟩, ⟨0, 0, 0⟩, ⟨0, 0, 0⟩],
         [⟨0, 0, 0⟩, ⟨0, 0, 0⟩, ⟨0, 0, 0⟩, ⟨0, 0, 0⟩, ⟨-(1/2), 0, 1⟩]] outs ∧
      construct_ppm_body
          [[⟨3/2, 0, 0⟩, ⟨0, 0, 0⟩, ⟨0, 0, 0⟩, ⟨0, 0, 0⟩, ⟨0, 0, 0⟩],
           [⟨0, 0, 0⟩, ⟨0, 0, 0⟩, ⟨0, 1/2, 0⟩, ⟨0, 0, 0⟩, ⟨0, 0, 0⟩],
           [⟨0, 0, 0⟩, ⟨0, 0, 0⟩, ⟨0, 0, 0⟩, ⟨0, 0, 0⟩, ⟨-(1/2), 0, 1⟩]] = outs.flatten :=
  ppm_body_spec
    [[⟨3/2, 0, 0⟩, ⟨0, 0, 0⟩, ⟨0, 0, 0⟩, ⟨0, 0, 0⟩, ⟨0, 0, 0⟩],
     [⟨0, 0, 0⟩, ⟨0, 0, 0⟩, ⟨0, 1/2, 0⟩, ⟨0, 0, 0⟩, ⟨0, 0, 0⟩],
     [⟨0, 0, 0⟩, ⟨0, 0, 0⟩, ⟨0, 0, 0⟩, ⟨0, 0, 0⟩, ⟨-(1/2), 0, 1⟩]]
    (by
      intro row hrow
      rcases List.mem_cons.mp hrow with rfl | hrow2
      · simp
      · rcases List.mem_cons.mp hrow2 with rfl | hrow3
        · simp
        · rcases List.mem_cons.mp hrow3 with rfl | hrow4
          · simp
          · simp at hrow4)

end RTrace
